import Mathlib

/-!
Shallow embedding of the uci-rs engine client (`src/lib.rs`).

The subprocess's standard output is modelled as a list of stream items:
each item is one byte delivered to `read` (kept as a `Char`, mirroring
`buf[0] as char`, which is a bijection on bytes), or an I/O failure of the
underlying `read` call.  Exhaustion of the list models an output stream
that never delivers another byte (the subprocess hangs, or has exited so
that every further `read` is a zero-length read that the Rust loop cannot
distinguish from "no data yet"); the Rust code blocks forever in that
situation, modelled by the `Outcome.blocked` result.  Writes to the
subprocess's standard input always succeed in the model; every write and
every completed line read is recorded, in order, in an event trace.

The retry loops (`read_line`'s byte loop is structural; the line loops of
`read_left_output` and `bestmove` are not) are written with a fuel
parameter instantiated with `stdout.length + 1`, which can never be
exhausted before the stream is: every iteration consumes at least one
stream item, and once the stream is empty the inner read reports
`blocked` itself.  So the fuel-out branch (also `blocked`) is unreachable
and the functions compute exactly the loop semantics of the source.
-/

/-- Items of the modelled subprocess output stream: a delivered byte, or an
I/O error raised by the `read` call. -/
inductive StreamItem where
  | byte (c : Char)
  | ioError
deriving DecidableEq, Repr

/-- Events recorded by the model: a string written to the subprocess stdin
(one per `write_fmt` call, the fully formatted text), or one completed
line read from its stdout. -/
inductive Event where
  | write (s : String)
  | read (s : String)
deriving DecidableEq, Repr

/-- State of the engine subprocess channel: the pending (not yet consumed)
output stream, and the trace of events so far. -/
structure EngineState where
  stdout : List StreamItem
  trace : List Event
deriving DecidableEq, Repr

/-- Model of `EngineError` from the source: `Io(io::Error)` (payload
dropped) and `UnknownOption(String)`. -/
inductive EngineError where
  | io
  | unknownOption (name : String)
deriving DecidableEq, Repr

/-- Result of running one engine operation: normal return with a value and
the new state, an `EngineError` propagated by `?`, a Rust panic, or an
operation that blocks forever on the stream. -/
inductive Outcome (α : Type) where
  | ok (a : α) (st : EngineState)
  | error (e : EngineError)
  | panicked
  | blocked
deriving DecidableEq, Repr

/-- Model of Rust `str::trim` on the underlying character list: drop
leading and trailing whitespace (for the ASCII protocol text used here,
Rust's and Lean's whitespace predicates agree). -/
def trimChars (cs : List Char) : List Char :=
  ((cs.dropWhile Char.isWhitespace).reverse.dropWhile Char.isWhitespace).reverse

/-- Model of Rust `str::trim`. -/
def strTrim (s : String) : String := ⟨trimChars s.data⟩

/-- Model of Rust `str::starts_with`. -/
def strStartsWith (s p : String) : Bool := p.data.isPrefixOf s.data

/-- Split a character list at every character satisfying `p`, keeping
empty fields, as Rust `str::split` does. -/
def splitPred (p : Char → Bool) : List Char → List (List Char)
  | [] => [[]]
  | c :: rest =>
    match splitPred p rest with
    | [] => [[]]
    | w :: ws => if p c then [] :: w :: ws else (c :: w) :: ws

/-- Model of Rust `str::split(sep)` for a single separator character:
fields between separators, empty fields kept. -/
def splitChar (sep : Char) (cs : List Char) : List (List Char) :=
  splitPred (fun c => c = sep) cs

/-- Result of the byte-level `read_line`: a completed line with the
remaining stream, an I/O error from `read`, or blocking forever. -/
inductive ReadResult where
  | ok (line : String) (rest : List StreamItem)
  | ioError
  | blocked
deriving DecidableEq, Repr

/-- Byte-accumulation loop of `read_line` from the source: push each
delivered byte onto the line, stop after pushing a newline byte. -/
def read_line_aux (s : String) : List StreamItem → ReadResult
  | [] => .blocked
  | .ioError :: _ => .ioError
  | .byte c :: rest =>
    if c = '\n' then .ok (s.push c) rest else read_line_aux (s.push c) rest

/-- Model of `Engine::read_line` at the stream level: accumulate bytes
starting from the empty string until a newline byte is pushed. -/
def read_line (stream : List StreamItem) : ReadResult :=
  read_line_aux "" stream

/-- Model of `Engine::read_line` on the engine state: one completed line
read is recorded in the trace; an I/O error becomes `EngineError::Io`.
(`read_line_aux "" st.stdout` is definitionally the stream-level
`read_line st.stdout`; the unfolded form avoids the name clash with this
declaration.) -/
def Engine.read_line (st : EngineState) : Outcome String :=
  match read_line_aux "" st.stdout with
  | .ok l rest => .ok l { stdout := rest, trace := st.trace ++ [Event.read l] }
  | .ioError => .error .io
  | .blocked => .blocked

/-- Model of `Engine::write_fmt`: record the formatted text in the trace
(writes are infallible in the model). -/
def Engine.write_fmt (s : String) (st : EngineState) : EngineState :=
  { st with trace := st.trace ++ [Event.write s] }

/-- Drain loop of `Engine::read_left_output`: read a line, trim it; on
`"readyok"` return the accumulated lines joined with `"\n"`, otherwise
push the trimmed line and continue. -/
def read_left_output_loop : Nat → List String → EngineState → Outcome String
  | 0, _, _ => .blocked
  | fuel + 1, s, st =>
    match Engine.read_line st with
    | .ok next_line st' =>
      if strTrim next_line = "readyok" then .ok (String.intercalate "\n" s) st'
      else read_left_output_loop fuel (s ++ [strTrim next_line]) st'
    | .error e => .error e
    | .panicked => .panicked
    | .blocked => .blocked

/-- Model of `Engine::read_left_output`: write the `isready` probe, then
drain lines until the `readyok` marker. -/
def Engine.read_left_output (st : EngineState) : Outcome String :=
  let st1 := Engine.write_fmt "isready\n" st
  read_left_output_loop (st1.stdout.length + 1) [] st1

/-- Search loop of `Engine::bestmove`: read lines until one starts with
`"bestmove"`, then index element 1 of the split-on-space fields (a Rust
panic when that element does not exist) and return it trimmed. -/
def bestmove_loop : Nat → EngineState → Outcome String
  | 0, _ => .blocked
  | fuel + 1, st =>
    match Engine.read_line st with
    | .ok s st' =>
      if strStartsWith s "bestmove" then
        match splitChar ' ' s.data with
        | _ :: t :: _ => .ok (strTrim ⟨t⟩) st'
        | _ => .panicked
      else bestmove_loop fuel st'
    | .error e => .error e
    | .panicked => .panicked
    | .blocked => .blocked

/-- Model of `Engine::bestmove`: write the `go movetime` command with the
configured budget, then run the search loop. -/
def Engine.bestmove (movetime : Nat) (st : EngineState) : Outcome String :=
  let st1 := Engine.write_fmt ("go movetime " ++ toString movetime ++ "\n") st
  bestmove_loop (st1.stdout.length + 1) st1

/-- Model of `Engine::set_option`: write the formatted option command,
drain, and classify a non-empty (post-trim) collected output as
`UnknownOption` carrying the option name. -/
def Engine.set_option (name value : String) (st : EngineState) : Outcome Unit :=
  let st1 :=
    Engine.write_fmt ("setoption name " ++ name ++ " value " ++ value ++ "\n") st
  match Engine.read_left_output st1 with
  | .ok error_msg st2 =>
    if (strTrim error_msg).isEmpty then .ok () st2
    else .error (.unknownOption name)
  | .error e => .error e
  | .panicked => .panicked
  | .blocked => .blocked

/-- Model of `Engine::command`: write the trimmed command text followed by
a newline, then drain (the real-time `thread::sleep` between the two has
no observable effect on the modelled state). -/
def Engine.command (cmd : String) (st : EngineState) : Outcome String :=
  let st1 := Engine.write_fmt (strTrim cmd ++ "\n") st
  Engine.read_left_output st1

/-- Model of `Engine::make_moves`: fire-and-forget write of the
start-position command with the space-joined move list. -/
def Engine.make_moves (moves : List String) (st : EngineState) : Outcome Unit :=
  .ok ()
    (Engine.write_fmt
      ("position startpos moves " ++ String.intercalate " " moves ++ "\n") st)

/-- Model of `Engine::make_moves_from_position`: fire-and-forget write of
the from-FEN command with the space-joined move list. -/
def Engine.make_moves_from_position (fen : String) (moves : List String)
    (st : EngineState) : Outcome Unit :=
  .ok ()
    (Engine.write_fmt
      ("position fen " ++ fen ++ " moves " ++ String.intercalate " " moves ++ "\n") st)

/-- Model of `Engine::set_position`: `make_moves_from_position` with an
empty move list. -/
def Engine.set_position (fen : String) (st : EngineState) : Outcome Unit :=
  Engine.make_moves_from_position fen [] st

/-- Model of `Engine::new` after the OS-level spawn: `spawn_ok` records
whether the spawn succeeded (`.expect` panics otherwise); then one initial
line read, then `command "uci"` (handshake write followed by the probe
write and the drain to the marker). -/
def Engine.new (spawn_ok : Bool) (stdout : List StreamItem) : Outcome Unit :=
  if spawn_ok then
    let st0 : EngineState := { stdout := stdout, trace := [] }
    match Engine.read_line st0 with
    | .ok _ st1 =>
      match Engine.command "uci" st1 with
      | .ok _ st2 => .ok () st2
      | .error e => .error e
      | .panicked => .panicked
      | .blocked => .blocked
    | .error e => .error e
    | .panicked => .panicked
    | .blocked => .blocked
  else .panicked

/-- Whitespace-delimited tokens of a string (empty fields dropped), the
reading used by the specification's description of the search loop. -/
def wsTokens (s : String) : List String :=
  ((splitPred Char.isWhitespace s.data).filter (fun w => w ≠ [])).map
    (fun w => String.mk w)

/-- Search loop as the specification words it (for comparison with the
source's `bestmove_loop`): stop at the first line whose FIRST
whitespace-delimited token EQUALS `"bestmove"`, and return that line's
second whitespace-delimited token, trimmed. -/
def bestmove_spec_loop : Nat → EngineState → Outcome String
  | 0, _ => .blocked
  | fuel + 1, st =>
    match Engine.read_line st with
    | .ok s st' =>
      match wsTokens s with
      | t0 :: rest =>
        if t0 = "bestmove" then
          match rest with
          | t1 :: _ => .ok (strTrim t1) st'
          | [] => .panicked
        else bestmove_spec_loop fuel st'
      | [] => bestmove_spec_loop fuel st'
    | .error e => .error e
    | .panicked => .panicked
    | .blocked => .blocked

/-- Specification-worded counterpart of `Engine.bestmove`, used only to
compare the spec's description of terminal-marker extraction with the
source's behaviour. -/
def Engine.bestmove_spec (movetime : Nat) (st : EngineState) : Outcome String :=
  let st1 := Engine.write_fmt ("go movetime " ++ toString movetime ++ "\n") st
  bestmove_spec_loop (st1.stdout.length + 1) st1

/-- Encode a string as delivered bytes of the output stream. -/
def bytesOf (s : String) : List StreamItem :=
  s.data.map StreamItem.byte

/-- Encode a list of line payloads (each without its terminating newline)
as the byte stream delivering each payload followed by a newline. -/
def encodeLines (ls : List String) : List StreamItem :=
  (ls.map (fun l => bytesOf (l ++ "\n"))).flatten

/-- Complete (newline-terminated) lines contained in a character stream,
each including its newline; a trailing unterminated fragment is dropped. -/
def linesOfAux (acc : List Char) : List Char → List String
  | [] => []
  | c :: rest =>
    if c = '\n' then String.mk (acc ++ [c]) :: linesOfAux [] rest
    else linesOfAux (acc ++ [c]) rest

/-- Complete lines of a character stream. -/
def linesOf (cs : List Char) : List String := linesOfAux [] cs
theorem String.data_app (s t : String) : (s ++ t).data = s.data ++ t.data := rfl

theorem String.push_data (s : String) (c : Char) : (s.push c).data = s.data ++ [c] := rfl

theorem read_line_aux_line (rest : List StreamItem) :
    ∀ (cs : List Char) (s : String), '\n' ∉ cs →
      read_line_aux s (cs.map StreamItem.byte ++ StreamItem.byte '\n' :: rest) =
        .ok ⟨s.data ++ cs ++ ['\n']⟩ rest := by
  intro cs
  induction cs with
  | nil =>
    intro s _
    simp [read_line_aux, String.push]
  | cons c cs ih =>
    intro s h
    have hc : c ≠ '\n' := fun e => h (e ▸ List.mem_cons_self _ _)
    have hmem : '\n' ∉ cs := fun hm => h (List.mem_cons_of_mem _ hm)
    simp only [List.map_cons, List.cons_append, read_line_aux, if_neg hc, List.append_eq]
    rw [ih (s.push c) hmem]
    simp [String.push]

theorem read_line_aux_blocked :
    ∀ (cs : List Char) (s : String), '\n' ∉ cs →
      read_line_aux s (cs.map StreamItem.byte) = .blocked := by
  intro cs
  induction cs with
  | nil => intro s _; simp [read_line_aux]
  | cons c cs ih =>
    intro s h
    have hc : c ≠ '\n' := fun e => h (e ▸ List.mem_cons_self _ _)
    simp only [List.map_cons, read_line_aux, if_neg hc]
    exact ih (s.push c) (fun hm => h (List.mem_cons_of_mem _ hm))

theorem Engine.read_line_line (st : EngineState) (l : String) (rest : List StreamItem)
    (h1 : '\n' ∉ l.data) (h2 : st.stdout = bytesOf (l ++ "\n") ++ rest) :
    Engine.read_line st =
      .ok (l ++ "\n") { stdout := rest, trace := st.trace ++ [Event.read (l ++ "\n")] } := by
  have hb : bytesOf (l ++ "\n") ++ rest =
      l.data.map StreamItem.byte ++ StreamItem.byte '\n' :: rest := by
    simp [bytesOf, String.data_app]
  unfold Engine.read_line
  rw [h2, hb, read_line_aux_line rest l.data "" h1]
  rfl

theorem encodeLines_cons (l : String) (ls : List String) :
    encodeLines (l :: ls) = bytesOf (l ++ "\n") ++ encodeLines ls := by
  simp [encodeLines]

theorem encodeLines_length (ls : List String) : ls.length ≤ (encodeLines ls).length := by
  induction ls with
  | nil => simp [encodeLines]
  | cons l ls ih =>
    rw [encodeLines_cons]
    have : 1 ≤ (bytesOf (l ++ "\n")).length := by
      simp [bytesOf, String.data_app]
    simp only [List.length_append, List.length_cons]
    omega

theorem read_left_output_loop_run :
    ∀ (ls : List String) (m : String) (extra : List StreamItem) (acc : List String)
      (st : EngineState) (fuel : Nat),
      (∀ l ∈ ls, '\n' ∉ l.data ∧ strTrim (l ++ "\n") ≠ "readyok") →
      '\n' ∉ m.data → strTrim (m ++ "\n") = "readyok" →
      st.stdout = encodeLines ls ++ bytesOf (m ++ "\n") ++ extra →
      ls.length + 1 ≤ fuel →
      read_left_output_loop fuel acc st =
        .ok (String.intercalate "\n" (acc ++ ls.map fun l => strTrim (l ++ "\n")))
          { stdout := extra,
            trace := st.trace ++ (ls ++ [m]).map fun l => Event.read (l ++ "\n") } := by
  intro ls
  induction ls with
  | nil =>
    intro m extra acc st fuel _ hm1 hm2 hst hfuel
    obtain ⟨f, rfl⟩ : ∃ f, fuel = f + 1 := ⟨fuel - 1, by omega⟩
    have hrd := Engine.read_line_line st m extra hm1 (by simpa [encodeLines] using hst)
    simp [read_left_output_loop, hrd, hm2]
  | cons l ls ih =>
    intro m extra acc st fuel hls hm1 hm2 hst hfuel
    simp only [List.length_cons] at hfuel
    obtain ⟨f, rfl⟩ : ∃ f, fuel = f + 1 := ⟨fuel - 1, by omega⟩
    have hl := hls l (List.mem_cons_self _ _)
    have hrd := Engine.read_line_line st l (encodeLines ls ++ bytesOf (m ++ "\n") ++ extra)
      hl.1 (by rw [hst, encodeLines_cons]; simp)
    have hrec := ih m extra (acc ++ [strTrim (l ++ "\n")])
      { stdout := encodeLines ls ++ bytesOf (m ++ "\n") ++ extra,
        trace := st.trace ++ [Event.read (l ++ "\n")] } f
      (fun x hx => hls x (List.mem_cons_of_mem _ hx)) hm1 hm2 rfl (by omega)
    simp only [read_left_output_loop, hrd, if_neg hl.2, hrec]
    simp

theorem read_left_output_run (ls : List String) (m : String) (extra : List StreamItem)
    (tr : List Event)
    (hls : ∀ l ∈ ls, '\n' ∉ l.data ∧ strTrim (l ++ "\n") ≠ "readyok")
    (hm1 : '\n' ∉ m.data) (hm2 : strTrim (m ++ "\n") = "readyok") :
    Engine.read_left_output
        { stdout := encodeLines ls ++ bytesOf (m ++ "\n") ++ extra, trace := tr } =
      .ok (String.intercalate "\n" (ls.map fun l => strTrim (l ++ "\n")))
        { stdout := extra,
          trace := tr ++ Event.write "isready\n" ::
            (ls ++ [m]).map fun l => Event.read (l ++ "\n") } := by
  unfold Engine.read_left_output Engine.write_fmt
  have hlen := encodeLines_length ls
  have := read_left_output_loop_run ls m extra []
    { stdout := encodeLines ls ++ bytesOf (m ++ "\n") ++ extra,
      trace := tr ++ [Event.write "isready\n"] }
    (encodeLines ls ++ bytesOf (m ++ "\n") ++ extra).length.succ
    hls hm1 hm2 rfl (by simp only [List.length_append, Nat.succ_eq_add_one]; omega)
  simpa using this

/-- Claim C1: for an output stream of N non-marker lines followed by one
line trimming to the barrier marker `readyok`, `read_left_output` first
writes the liveness-probe command `isready`, then returns exactly those N
lines, each trimmed, joined in receipt order, with the marker line
excluded; for N = 0 the result is the empty string. -/
theorem read_left_output_returns_lines_before_marker (ls : List String) (m : String)
    (extra : List StreamItem) (tr : List Event)
    (hls : ∀ l ∈ ls, '\n' ∉ l.data ∧ strTrim (l ++ "\n") ≠ "readyok")
    (hm1 : '\n' ∉ m.data) (hm2 : strTrim (m ++ "\n") = "readyok") :
    Engine.read_left_output
        { stdout := encodeLines ls ++ bytesOf (m ++ "\n") ++ extra, trace := tr } =
      .ok (String.intercalate "\n" (ls.map fun l => strTrim (l ++ "\n")))
        { stdout := extra,
          trace := tr ++ Event.write "isready\n" ::
            (ls ++ [m]).map fun l => Event.read (l ++ "\n") } :=
  read_left_output_run ls m extra tr hls hm1 hm2

theorem c1_witness :
    (∀ l ∈ (["info string a", "id name b"] : List String),
        '\n' ∉ l.data ∧ strTrim (l ++ "\n") ≠ "readyok") ∧
    Engine.read_left_output
        { stdout := encodeLines ["info string a", "id name b", "readyok"], trace := [] } =
      .ok "info string a\nid name b"
        { stdout := [],
          trace := [Event.write "isready\n", Event.read "info string a\n",
            Event.read "id name b\n", Event.read "readyok\n"] } ∧
    Engine.read_left_output { stdout := encodeLines ["readyok"], trace := [] } =
      .ok "" { stdout := [], trace := [Event.write "isready\n", Event.read "readyok\n"] } :=
  ⟨by decide,
   read_left_output_returns_lines_before_marker ["info string a", "id name b"] "readyok" [] []
     (by decide) (by decide) (by decide),
   read_left_output_returns_lines_before_marker [] "readyok" [] []
     (by decide) (by decide) (by decide)⟩

/-- Claim C3: `set_option` succeeds (returns `ok`) exactly when the output
collected by the synchronized send-and-drain is empty after trimming, and
otherwise fails with an `UnknownOption` error carrying the original option
name. -/
theorem set_option_rejects_nonempty_output (nm value : String) (ls : List String)
    (m : String) (extra : List StreamItem) (tr : List Event)
    (hls : ∀ l ∈ ls, '\n' ∉ l.data ∧ strTrim (l ++ "\n") ≠ "readyok")
    (hm1 : '\n' ∉ m.data) (hm2 : strTrim (m ++ "\n") = "readyok") :
    Engine.set_option nm value
        { stdout := encodeLines ls ++ bytesOf (m ++ "\n") ++ extra, trace := tr } =
      if (strTrim (String.intercalate "\n" (ls.map fun l => strTrim (l ++ "\n")))).isEmpty
      then
        .ok ()
          { stdout := extra,
            trace := tr ++
              Event.write ("setoption name " ++ nm ++ " value " ++ value ++ "\n") ::
              Event.write "isready\n" ::
              (ls ++ [m]).map fun l => Event.read (l ++ "\n") }
      else .error (.unknownOption nm) := by
  have h := read_left_output_run ls m extra
    (tr ++ [Event.write ("setoption name " ++ nm ++ " value " ++ value ++ "\n")])
    hls hm1 hm2
  simp only [Engine.set_option, Engine.write_fmt]
  rw [h]
  by_cases hc :
      (strTrim (String.intercalate "\n" (ls.map fun l => strTrim (l ++ "\n")))).isEmpty
  · simp [hc]
  · simp [hc]

theorem c3_witness :
    Engine.set_option "Skill Level" "5"
        { stdout := encodeLines ["oops", "readyok"], trace := [] } =
      .error (.unknownOption "Skill Level") ∧
    Engine.set_option "Skill Level" "5" { stdout := encodeLines ["readyok"], trace := [] } =
      .ok ()
        { stdout := [],
          trace := [Event.write "setoption name Skill Level value 5\n",
            Event.write "isready\n", Event.read "readyok\n"] } :=
  ⟨set_option_rejects_nonempty_output "Skill Level" "5" ["oops"] "readyok" [] []
     (by decide) (by decide) (by decide),
   set_option_rejects_nonempty_output "Skill Level" "5" [] "readyok" [] []
     (by decide) (by decide) (by decide)⟩

/-- Claim C9: for every option name and value, the emitted option-setting
command text is exactly `setoption name <name> value <value>` followed by
a newline, with no extra escaping and no fail-fast rejection, regardless
of whitespace in the name or the value. -/
theorem set_option_command_text_exact (nm value : String) (m : String)
    (extra : List StreamItem) (tr : List Event)
    (hm1 : '\n' ∉ m.data) (hm2 : strTrim (m ++ "\n") = "readyok") :
    Engine.set_option nm value { stdout := bytesOf (m ++ "\n") ++ extra, trace := tr } =
      .ok ()
        { stdout := extra,
          trace := tr ++
            [Event.write ("setoption name " ++ nm ++ " value " ++ value ++ "\n"),
             Event.write "isready\n", Event.read (m ++ "\n")] } := by
  have h := read_left_output_run [] m extra
    (tr ++ [Event.write ("setoption name " ++ nm ++ " value " ++ value ++ "\n")])
    (by simp) hm1 hm2
  simp only [Engine.set_option, Engine.write_fmt]
  simp only [encodeLines, List.map_nil, List.flatten_nil, List.nil_append] at h
  rw [h]
  simp
  decide

theorem c9_witness :
    Engine.set_option " Skill  Level " " 5 5 "
        { stdout := bytesOf "readyok\n", trace := [] } =
      .ok ()
        { stdout := [],
          trace := [Event.write "setoption name  Skill  Level  value  5 5 \n",
            Event.write "isready\n", Event.read "readyok\n"] } := by
  have h := set_option_command_text_exact " Skill  Level " " 5 5 " "readyok" [] []
    (by decide) (by decide)
  simpa using h

/-- Claim C5: for every move sequence (including the empty one),
`make_moves` writes exactly `position startpos moves <joined>` plus a
newline and `make_moves_from_position` writes exactly
`position fen <fen> moves <joined>` plus a newline, where `<joined>` is
the space-joined move list; both are fire-and-forget: the output stream is
not read (it is unchanged and no read event is added). -/
theorem position_commands_formatting (moves : List String) (fen : String)
    (st : EngineState) :
    Engine.make_moves moves st =
      .ok ()
        { stdout := st.stdout,
          trace := st.trace ++
            [Event.write ("position startpos moves " ++
              String.intercalate " " moves ++ "\n")] } ∧
    Engine.make_moves_from_position fen moves st =
      .ok ()
        { stdout := st.stdout,
          trace := st.trace ++
            [Event.write ("position fen " ++ fen ++ " moves " ++
              String.intercalate " " moves ++ "\n")] } :=
  ⟨rfl, rfl⟩

/-- Claim C6, counterexample: `command` does not send the caller-supplied
text verbatim. For the input `" stop "` the first bytes written are
`"stop\n"` (trimmed, newline appended), which differ from the
caller-supplied text. -/
theorem command_not_verbatim_counterexample :
    Engine.command " stop " { stdout := bytesOf "readyok\n", trace := [] } =
      .ok ""
        { stdout := [],
          trace := [Event.write "stop\n", Event.write "isready\n",
            Event.read "readyok\n"] } ∧
    "stop\n" ≠ " stop " := by
  constructor
  · decide
  · decide

/-- Claim C6, amended: the generic `command` operation sends the TRIMMED
command text followed by one newline (then the probe for the synchronized
drain): the bytes written for the target command are exactly
`strTrim cmd ++ "\n"`, not the caller-supplied text verbatim. -/
theorem command_sends_trimmed_text (cmd : String) (ls : List String) (m : String)
    (extra : List StreamItem) (tr : List Event)
    (hls : ∀ l ∈ ls, '\n' ∉ l.data ∧ strTrim (l ++ "\n") ≠ "readyok")
    (hm1 : '\n' ∉ m.data) (hm2 : strTrim (m ++ "\n") = "readyok") :
    Engine.command cmd
        { stdout := encodeLines ls ++ bytesOf (m ++ "\n") ++ extra, trace := tr } =
      .ok (String.intercalate "\n" (ls.map fun l => strTrim (l ++ "\n")))
        { stdout := extra,
          trace := tr ++ Event.write (strTrim cmd ++ "\n") :: Event.write "isready\n" ::
            (ls ++ [m]).map fun l => Event.read (l ++ "\n") } := by
  have h := read_left_output_run ls m extra (tr ++ [Event.write (strTrim cmd ++ "\n")])
    hls hm1 hm2
  simp only [Engine.command, Engine.write_fmt]
  rw [h]
  simp

theorem c6_witness :
    Engine.command " go depth 10 "
        { stdout := encodeLines ["line1", "readyok"], trace := [] } =
      .ok "line1"
        { stdout := [],
          trace := [Event.write "go depth 10\n", Event.write "isready\n",
            Event.read "line1\n", Event.read "readyok\n"] } := by
  have h := command_sends_trimmed_text " go depth 10 " ["line1"] "readyok" [] []
    (by decide) (by decide) (by decide)
  simpa using h

theorem splitChar_eq_single (sep : Char) (cs : List Char) (h : sep ∉ cs) :
    splitChar sep cs = [cs] := by
  induction cs with
  | nil => rfl
  | cons c cs ih =>
    have hc : c ≠ sep := fun e => h (e ▸ List.mem_cons_self _ _)
    have hcs : sep ∉ cs := fun hm => h (List.mem_cons_of_mem _ hm)
    simp only [splitChar, splitPred] at *
    rw [ih hcs]
    simp [hc]

theorem bestmove_loop_run (line : String) (t0 t1 : List Char) (ts : List (List Char))
    (rest : List StreamItem) :
    ∀ (pre : List String) (st : EngineState) (fuel : Nat),
      (∀ p ∈ pre, '\n' ∉ p.data ∧ strStartsWith (p ++ "\n") "bestmove" = false) →
      '\n' ∉ line.data →
      strStartsWith (line ++ "\n") "bestmove" = true →
      splitChar ' ' (line ++ "\n").data = t0 :: t1 :: ts →
      st.stdout = encodeLines (pre ++ [line]) ++ rest →
      pre.length + 1 ≤ fuel →
      bestmove_loop fuel st =
        .ok (strTrim ⟨t1⟩)
          { stdout := rest,
            trace := st.trace ++ (pre ++ [line]).map fun l => Event.read (l ++ "\n") } := by
  intro pre
  induction pre with
  | nil =>
    intro st fuel _ hnl hsw htok hst hfuel
    obtain ⟨f, rfl⟩ : ∃ f, fuel = f + 1 := ⟨fuel - 1, by omega⟩
    have hrd := Engine.read_line_line st line rest hnl
      (by simpa [encodeLines] using hst)
    rw [show (line ++ "\n").data = line.data ++ ['\n'] from rfl] at htok
    simp [bestmove_loop, hrd, hsw, htok]
  | cons p pre ih =>
    intro st fuel hpre hnl hsw htok hst hfuel
    simp only [List.length_cons] at hfuel
    obtain ⟨f, rfl⟩ : ∃ f, fuel = f + 1 := ⟨fuel - 1, by omega⟩
    have hp := hpre p (List.mem_cons_self _ _)
    have hrd := Engine.read_line_line st p (encodeLines (pre ++ [line]) ++ rest)
      hp.1 (by rw [hst]; simp only [List.cons_append, encodeLines_cons]; simp)
    have hrec := ih
      { stdout := encodeLines (pre ++ [line]) ++ rest,
        trace := st.trace ++ [Event.read (p ++ "\n")] } f
      (fun x hx => hpre x (List.mem_cons_of_mem _ hx)) hnl hsw htok rfl (by omega)
    simp only [bestmove_loop, hrd, hp.2, Bool.false_eq_true, if_false, hrec]
    simp

theorem bestmove_loop_panics (line : String) (rest : List StreamItem) :
    ∀ (pre : List String) (st : EngineState) (fuel : Nat),
      (∀ p ∈ pre, '\n' ∉ p.data ∧ strStartsWith (p ++ "\n") "bestmove" = false) →
      '\n' ∉ line.data →
      strStartsWith (line ++ "\n") "bestmove" = true →
      ' ' ∉ line.data →
      st.stdout = encodeLines (pre ++ [line]) ++ rest →
      pre.length + 1 ≤ fuel →
      bestmove_loop fuel st = .panicked := by
  intro pre
  induction pre with
  | nil =>
    intro st fuel _ hnl hsw hsp hst hfuel
    obtain ⟨f, rfl⟩ : ∃ f, fuel = f + 1 := ⟨fuel - 1, by omega⟩
    have hrd := Engine.read_line_line st line rest hnl
      (by simpa [encodeLines] using hst)
    have htok : splitChar ' ' (line ++ "\n").data = [(line ++ "\n").data] := by
      refine splitChar_eq_single ' ' _ ?_
      rw [String.data_app]
      intro hm
      rcases List.mem_append.mp hm with h1 | h2
      · exact hsp h1
      · simp at h2
    rw [show (line ++ "\n").data = line.data ++ ['\n'] from rfl] at htok
    simp [bestmove_loop, hrd, hsw, htok]
  | cons p pre ih =>
    intro st fuel hpre hnl hsw hsp hst hfuel
    simp only [List.length_cons] at hfuel
    obtain ⟨f, rfl⟩ : ∃ f, fuel = f + 1 := ⟨fuel - 1, by omega⟩
    have hp := hpre p (List.mem_cons_self _ _)
    have hrd := Engine.read_line_line st p (encodeLines (pre ++ [line]) ++ rest)
      hp.1 (by rw [hst]; simp only [List.cons_append, encodeLines_cons]; simp)
    have hrec := ih
      { stdout := encodeLines (pre ++ [line]) ++ rest,
        trace := st.trace ++ [Event.read (p ++ "\n")] } f
      (fun x hx => hpre x (List.mem_cons_of_mem _ hx)) hnl hsw hsp rfl (by omega)
    simp only [bestmove_loop, hrd, hp.2, Bool.false_eq_true, if_false, hrec]

/-- Claim C2, counterexample: the source's `bestmove` stops at the first
line that merely STARTS WITH `bestmove`, not at the first line whose first
whitespace-delimited token equals `bestmove`. On the stream
`bestmovefoo x` / `bestmove y` the source returns `x`, whereas the
spec-worded extraction (`bestmove_spec`) returns `y`. -/
theorem bestmove_marker_counterexample :
    Engine.bestmove 100
        { stdout := encodeLines ["bestmovefoo x", "bestmove y"], trace := [] } =
      .ok "x"
        { stdout := bytesOf "bestmove y\n",
          trace := [Event.write "go movetime 100\n", Event.read "bestmovefoo x\n"] } ∧
    Engine.bestmove_spec 100
        { stdout := encodeLines ["bestmovefoo x", "bestmove y"], trace := [] } =
      .ok "y"
        { stdout := [],
          trace := [Event.write "go movetime 100\n", Event.read "bestmovefoo x\n",
            Event.read "bestmove y\n"] } ∧
    ("x" : String) ≠ "y" :=
  ⟨by decide, by decide, by decide⟩

/-- Claim C2, amended: `bestmove` loops reading lines until a line whose
PREFIX is `bestmove` (not token equality), splits that line on single
space characters keeping empty fields, and returns field index 1 of the
split, trimmed; in particular for a well-formed result line
`bestmove e2e4 ...` it returns exactly `e2e4` (see the witness). -/
theorem bestmove_returns_second_field_of_prefix_line (mt : Nat) (pre : List String)
    (line : String) (t0 t1 : List Char) (ts : List (List Char))
    (rest : List StreamItem) (tr : List Event)
    (hpre : ∀ p ∈ pre, '\n' ∉ p.data ∧ strStartsWith (p ++ "\n") "bestmove" = false)
    (hnl : '\n' ∉ line.data)
    (hsw : strStartsWith (line ++ "\n") "bestmove" = true)
    (htok : splitChar ' ' (line ++ "\n").data = t0 :: t1 :: ts) :
    Engine.bestmove mt { stdout := encodeLines (pre ++ [line]) ++ rest, trace := tr } =
      .ok (strTrim ⟨t1⟩)
        { stdout := rest,
          trace := tr ++ Event.write ("go movetime " ++ toString mt ++ "\n") ::
            (pre ++ [line]).map fun l => Event.read (l ++ "\n") } := by
  have hlen := encodeLines_length (pre ++ [line])
  have h := bestmove_loop_run line t0 t1 ts rest pre
    { stdout := encodeLines (pre ++ [line]) ++ rest,
      trace := tr ++ [Event.write ("go movetime " ++ toString mt ++ "\n")] }
    ((encodeLines (pre ++ [line]) ++ rest).length + 1)
    hpre hnl hsw htok rfl
    (by simp only [List.length_append, List.length_cons] at hlen ⊢; omega)
  simp only [Engine.bestmove, Engine.write_fmt]
  rw [h]
  simp

theorem c2_witness :
    Engine.bestmove 100
        { stdout := encodeLines ["info depth 1", "bestmove e2e4 ponder e7e5"],
          trace := [] } =
      .ok "e2e4"
        { stdout := [],
          trace := [Event.write "go movetime 100\n", Event.read "info depth 1\n",
            Event.read "bestmove e2e4 ponder e7e5\n"] } := by
  have h := bestmove_returns_second_field_of_prefix_line 100 ["info depth 1"]
    "bestmove e2e4 ponder e7e5" "bestmove".data "e2e4".data
    ["ponder".data, "e7e5\n".data] [] []
    (by decide) (by decide) (by decide) (by decide)
  simpa using h

/-- Claim C10: if the first line beginning with `bestmove` contains no
space character, `bestmove` does not return a `Result` at all: it indexes
the nonexistent second split field and panics. -/
theorem bestmove_panics_without_second_token (mt : Nat) (pre : List String)
    (line : String) (rest : List StreamItem) (tr : List Event)
    (hpre : ∀ p ∈ pre, '\n' ∉ p.data ∧ strStartsWith (p ++ "\n") "bestmove" = false)
    (hnl : '\n' ∉ line.data)
    (hsw : strStartsWith (line ++ "\n") "bestmove" = true)
    (hsp : ' ' ∉ line.data) :
    Engine.bestmove mt { stdout := encodeLines (pre ++ [line]) ++ rest, trace := tr } =
      .panicked := by
  have hlen := encodeLines_length (pre ++ [line])
  have h := bestmove_loop_panics line rest pre
    { stdout := encodeLines (pre ++ [line]) ++ rest,
      trace := tr ++ [Event.write ("go movetime " ++ toString mt ++ "\n")] }
    ((encodeLines (pre ++ [line]) ++ rest).length + 1)
    hpre hnl hsw hsp rfl
    (by simp only [List.length_append, List.length_cons] at hlen ⊢; omega)
  simp only [Engine.bestmove, Engine.write_fmt]
  rw [h]

theorem c10_witness :
    Engine.bestmove 100 { stdout := encodeLines ["bestmove"], trace := [] } =
      .panicked := by
  have h := bestmove_panics_without_second_token 100 [] "bestmove" [] []
    (by decide) (by decide) (by decide) (by decide)
  simpa using h

theorem read_left_output_loop_io (acc : List String) (st : EngineState) (f : Nat)
    (rest : List StreamItem) (h : st.stdout = StreamItem.ioError :: rest) :
    read_left_output_loop (f + 1) acc st = .error .io := by
  have hrd : Engine.read_line st = .error .io := by
    unfold Engine.read_line
    rw [h]
    rfl
  simp [read_left_output_loop, hrd]

/-- Claim C4: construction performs, in order: exactly one initial line
read, then the handshake write `uci`, then one full synchronization
barrier (probe write plus drain to the marker), and only then returns;
an I/O failure anywhere along this path after spawning propagates as an
error, while subprocess-spawn failure itself is a panic rather than a
typed error. -/
theorem engine_new_sequence :
    (∀ stdout, Engine.new false stdout = .panicked) ∧
    (∀ stdout, Engine.new true (StreamItem.ioError :: stdout) = .error .io) ∧
    (∀ (g : String) (rest : List StreamItem), '\n' ∉ g.data →
      Engine.new true (bytesOf (g ++ "\n") ++ StreamItem.ioError :: rest) =
        .error .io) ∧
    (∀ (g : String) (ls : List String) (m : String) (extra : List StreamItem),
      '\n' ∉ g.data →
      (∀ l ∈ ls, '\n' ∉ l.data ∧ strTrim (l ++ "\n") ≠ "readyok") →
      '\n' ∉ m.data → strTrim (m ++ "\n") = "readyok" →
      Engine.new true
          (bytesOf (g ++ "\n") ++ encodeLines ls ++ bytesOf (m ++ "\n") ++ extra) =
        .ok ()
          { stdout := extra,
            trace := Event.read (g ++ "\n") :: Event.write "uci\n" ::
              Event.write "isready\n" ::
              (ls ++ [m]).map fun l => Event.read (l ++ "\n") }) := by
  refine ⟨fun _ => rfl, fun s => ?_, fun g rest hg => ?_, fun g ls m extra hg hls hm1 hm2 => ?_⟩
  · have hrd : Engine.read_line { stdout := StreamItem.ioError :: s, trace := [] } =
        .error .io := rfl
    simp [Engine.new, hrd]
  · have hrd := Engine.read_line_line { stdout := bytesOf (g ++ "\n") ++ StreamItem.ioError :: rest, trace := [] }
      g (StreamItem.ioError :: rest) hg rfl
    have htrim : strTrim "uci" = "uci" := by decide
    simp only [Engine.new, if_true, hrd, Engine.command, Engine.write_fmt,
      Engine.read_left_output, htrim]
    rw [read_left_output_loop_io [] _ _ rest rfl]
  · have hrd := Engine.read_line_line
      { stdout := bytesOf (g ++ "\n") ++ encodeLines ls ++ bytesOf (m ++ "\n") ++ extra,
        trace := [] }
      g (encodeLines ls ++ bytesOf (m ++ "\n") ++ extra) hg (by simp)
    have htrim : strTrim "uci" = "uci" := by decide
    have hdrain := read_left_output_run ls m extra
      [Event.read (g ++ "\n"), Event.write "uci\n"] hls hm1 hm2
    simp only [Engine.new, if_true, hrd, Engine.command, Engine.write_fmt, htrim]
    rw [show ([] ++ [Event.read (g ++ "\n")] ++ [Event.write ("uci" ++ "\n")] : List Event) =
      [Event.read (g ++ "\n"), Event.write "uci\n"] from rfl]
    rw [hdrain]
    simp

theorem c4_witness :
    (∀ l ∈ (["id name SF", "uciok"] : List String),
        '\n' ∉ l.data ∧ strTrim (l ++ "\n") ≠ "readyok") ∧
    Engine.new true
        (encodeLines ["Stockfish 16", "id name SF", "uciok", "readyok"]) =
      .ok ()
        { stdout := [],
          trace := [Event.read "Stockfish 16\n", Event.write "uci\n",
            Event.write "isready\n", Event.read "id name SF\n",
            Event.read "uciok\n", Event.read "readyok\n"] } :=
  ⟨by decide,
   by
    have h := engine_new_sequence.2.2.2 "Stockfish 16" ["id name SF", "uciok"]
      "readyok" [] (by decide) (by decide) (by decide) (by decide)
    simpa using h⟩

/-- Claim C8: `read_line` accumulates bytes one at a time until a newline
byte is seen and returns the line including that newline; a stream that
never delivers a newline (including a closed stream, whose zero-length
reads the loop cannot distinguish from pending data) makes it block
forever, so it terminates exactly when a newline byte is eventually
delivered. -/
theorem read_line_newline_termination :
    (∀ cs : List Char, '\n' ∉ cs → read_line (cs.map StreamItem.byte) = .blocked) ∧
    (∀ pre post : List Char, '\n' ∉ pre →
      read_line ((pre ++ '\n' :: post).map StreamItem.byte) =
        .ok ⟨pre ++ ['\n']⟩ (post.map StreamItem.byte)) := by
  constructor
  · exact fun cs h => read_line_aux_blocked cs "" h
  · intro pre post h
    unfold read_line
    rw [List.map_append, List.map_cons]
    have := read_line_aux_line (post.map StreamItem.byte) pre "" h
    simpa using this

theorem c8_witness :
    read_line (['h', 'i', '\n', 'x'].map StreamItem.byte) =
      .ok "hi\n" (['x'].map StreamItem.byte) ∧
    read_line (['h', 'i'].map StreamItem.byte) = .blocked :=
  ⟨read_line_newline_termination.2 ['h', 'i'] ['x'] (by decide),
   read_line_newline_termination.1 ['h', 'i'] (by decide)⟩

theorem Engine.read_line_ok_trace (st : EngineState) (l : String) (st1 : EngineState)
    (h : Engine.read_line st = .ok l st1) :
    st1.trace = st.trace ++ [Event.read l] := by
  unfold Engine.read_line at h
  cases hr : read_line_aux "" st.stdout <;> rw [hr] at h
  case ok line rest =>
    simp only [Outcome.ok.injEq] at h
    rw [← h.2]
    simp [h.1]
  case ioError => simp at h
  case blocked => simp at h

theorem read_left_output_loop_ok_trace :
    ∀ (fuel : Nat) (acc : List String) (st : EngineState) (v : String)
      (st' : EngineState),
      read_left_output_loop fuel acc st = .ok v st' →
      ∃ (rs : List String) (mkr : String),
        st'.trace = st.trace ++ rs.map Event.read ++ [Event.read mkr] ∧
        strTrim mkr = "readyok" ∧ ∀ r ∈ rs, strTrim r ≠ "readyok" := by
  intro fuel
  induction fuel with
  | zero => intro acc st v st' h; simp [read_left_output_loop] at h
  | succ f ih =>
    intro acc st v st' h
    simp only [read_left_output_loop] at h
    split at h
    case h_1 l st1 hrd =>
      have htr := Engine.read_line_ok_trace st l st1 hrd
      by_cases hm : strTrim l = "readyok"
      · rw [if_pos hm] at h
        simp only [Outcome.ok.injEq] at h
        refine ⟨[], l, ?_, hm, by simp⟩
        rw [← h.2, htr]
        simp
      · rw [if_neg hm] at h
        obtain ⟨rs, mkr, htr', hmkr, hrs⟩ := ih (acc ++ [strTrim l]) st1 v st' h
        refine ⟨l :: rs, mkr, ?_, hmkr, ?_⟩
        · rw [htr', htr]
          simp
        · intro r hr
          rcases List.mem_cons.mp hr with h1 | h2
          · exact h1 ▸ hm
          · exact hrs r h2
    case h_2 => simp at h
    case h_3 => simp at h
    case h_4 => simp at h

theorem exists_first_newline (cs : List Char) (h : '\n' ∈ cs) :
    ∃ pre post, cs = pre ++ '\n' :: post ∧ '\n' ∉ pre := by
  induction cs with
  | nil => simp at h
  | cons c cs ih =>
    by_cases hc : c = '\n'
    · exact ⟨[], cs, by rw [hc]; rfl, by simp⟩
    · have hmem : '\n' ∈ cs := by
        rcases List.mem_cons.mp h with h1 | h2
        · exact absurd h1.symm hc
        · exact h2
      obtain ⟨pre, post, heq, hpre⟩ := ih hmem
      exact ⟨c :: pre, post, by rw [heq]; rfl, by
        intro hm
        rcases List.mem_cons.mp hm with h1 | h2
        · exact hc h1.symm
        · exact hpre h2⟩

theorem linesOfAux_no_newline :
    ∀ (cs : List Char) (acc : List Char), '\n' ∉ cs → linesOfAux acc cs = [] := by
  intro cs
  induction cs with
  | nil => intro acc _; rfl
  | cons c cs ih =>
    intro acc h
    have hc : c ≠ '\n' := fun e => h (e ▸ List.mem_cons_self _ _)
    simp only [linesOfAux, if_neg hc]
    exact ih (acc ++ [c]) (fun hm => h (List.mem_cons_of_mem _ hm))

theorem linesOfAux_decomp :
    ∀ (pre : List Char) (acc : List Char) (post : List Char), '\n' ∉ pre →
      linesOfAux acc (pre ++ '\n' :: post) =
        String.mk (acc ++ pre ++ ['\n']) :: linesOfAux [] post := by
  intro pre
  induction pre with
  | nil => intro acc post _; simp [linesOfAux]
  | cons c pre ih =>
    intro acc post h
    have hc : c ≠ '\n' := fun e => h (e ▸ List.mem_cons_self _ _)
    simp only [List.cons_append, linesOfAux, if_neg hc, List.append_eq]
    rw [ih (acc ++ [c]) post (fun hm => h (List.mem_cons_of_mem _ hm))]
    simp

theorem read_left_output_loop_ok_iff :
    ∀ (fuel : Nat) (cs : List Char) (acc : List String) (tr : List Event),
      cs.length + 1 ≤ fuel →
      ((∃ v st', read_left_output_loop fuel acc
          { stdout := cs.map StreamItem.byte, trace := tr } = .ok v st') ↔
        ∃ l ∈ linesOf cs, strTrim l = "readyok") := by
  intro fuel
  induction fuel with
  | zero => intro cs acc tr hle; omega
  | succ f ih =>
    intro cs acc tr hle
    by_cases hnl : '\n' ∈ cs
    · obtain ⟨pre, post, rfl, hpre⟩ := exists_first_newline cs hnl
      have hrd : Engine.read_line { stdout := (pre ++ '\n' :: post).map StreamItem.byte, trace := tr } =
          .ok ⟨pre ++ ['\n']⟩
            { stdout := post.map StreamItem.byte,
              trace := tr ++ [Event.read ⟨pre ++ ['\n']⟩] } := by
        unfold Engine.read_line
        simp only [List.map_append, List.map_cons]
        have := read_line_aux_line (post.map StreamItem.byte) pre "" hpre
        rw [this]
        simp
      have hlines : linesOf (pre ++ '\n' :: post) =
          String.mk (pre ++ ['\n']) :: linesOf post := by
        unfold linesOf
        rw [linesOfAux_decomp pre [] post hpre]
        simp
      by_cases hm : strTrim ⟨pre ++ ['\n']⟩ = "readyok"
      · constructor
        · intro _
          exact ⟨⟨pre ++ ['\n']⟩, by rw [hlines]; exact List.mem_cons_self _ _, hm⟩
        · intro _
          exact ⟨_, _, by simp only [read_left_output_loop, hrd, if_pos hm]; rfl⟩
      · have hlen : post.length + 1 ≤ f := by
          simp only [List.length_append, List.length_cons] at hle
          omega
        have hrec := ih post (acc ++ [strTrim ⟨pre ++ ['\n']⟩])
          (tr ++ [Event.read ⟨pre ++ ['\n']⟩]) hlen
        simp only [read_left_output_loop, hrd, if_neg hm]
        rw [hrec, hlines]
        constructor
        · intro hx
          exact ⟨hx.choose, List.mem_cons_of_mem _ hx.choose_spec.1, hx.choose_spec.2⟩
        · intro ⟨l, hlm, hlt⟩
          rcases List.mem_cons.mp hlm with h1 | h2
          · exact absurd (h1 ▸ hlt) hm
          · exact ⟨l, h2, hlt⟩
    · have hblocked : read_line_aux "" (cs.map StreamItem.byte) = .blocked :=
        read_line_aux_blocked cs "" hnl
      have hrd : Engine.read_line { stdout := cs.map StreamItem.byte, trace := tr } =
          .blocked := by
        unfold Engine.read_line
        rw [hblocked]
      have hlines : linesOf cs = [] := linesOfAux_no_newline cs [] hnl
      simp [read_left_output_loop, hrd, hlines]

/-- Claim C7: the synchronized send-and-drain never returns early: whenever
it returns normally, the last line consumed trims to the marker `readyok`
and no earlier line consumed in the call does; and on a byte stream it
returns normally if and only if the stream contains a complete line
trimming to the marker (no timeout exists). -/
theorem read_left_output_barrier_termination :
    (∀ (st : EngineState) (v : String) (st' : EngineState),
      Engine.read_left_output st = .ok v st' →
      ∃ (rs : List String) (mkr : String),
        st'.trace = st.trace ++ Event.write "isready\n" ::
          rs.map Event.read ++ [Event.read mkr] ∧
        strTrim mkr = "readyok" ∧ ∀ r ∈ rs, strTrim r ≠ "readyok") ∧
    (∀ (cs : List Char) (tr : List Event),
      (∃ v st', Engine.read_left_output
          { stdout := cs.map StreamItem.byte, trace := tr } = .ok v st') ↔
        ∃ l ∈ linesOf cs, strTrim l = "readyok") := by
  constructor
  · intro st v st' h
    unfold Engine.read_left_output Engine.write_fmt at h
    obtain ⟨rs, mkr, htr, hmkr, hrs⟩ := read_left_output_loop_ok_trace _ _ _ _ _ h
    refine ⟨rs, mkr, ?_, hmkr, hrs⟩
    rw [htr]
    simp
  · intro cs tr
    unfold Engine.read_left_output Engine.write_fmt
    have := read_left_output_loop_ok_iff ((cs.map StreamItem.byte).length + 1) cs []
      (tr ++ [Event.write "isready\n"]) (by simp)
    simpa using this

theorem c7_witness :
    ∃ (rs : List String) (mkr : String),
      ([Event.write "isready\n", Event.read "info x\n", Event.read "readyok\n"] :
          List Event) =
        [] ++ Event.write "isready\n" :: rs.map Event.read ++ [Event.read mkr] ∧
      strTrim mkr = "readyok" ∧ ∀ r ∈ rs, strTrim r ≠ "readyok" :=
  read_left_output_barrier_termination.1
    { stdout := encodeLines ["info x", "readyok"], trace := [] } "info x"
    { stdout := [],
      trace := [Event.write "isready\n", Event.read "info x\n",
        Event.read "readyok\n"] }
    (by decide)
